import Mathlib

/-!
Verification development for the access-control core of gojue/moling:
the command allowlist (`CommandServer.isAllowedCommand`, `CommandConfig.Check`)
and the filesystem path sandbox (`FilesystemServer.isPathInAllowedDirs`,
`FilesystemServer.validatePath`, `FileSystemConfig.Check`,
`NewFileSystemConfig`), together with the deny-path behaviour of the tool
handlers.  Go strings are modelled as Lean `String`s, the relevant
`strings`/`path/filepath`/`os` library calls are re-implemented below at the
character level, and the OS filesystem is an explicit finite map from
absolute paths to nodes (directory, file, or symbolic link).
-/

set_option linter.unusedVariables false

/-- Model of Go `strings.HasPrefix` at the character level: `chPref pre s`
is true when `pre` is a (raw string) prefix of `s`. -/
def chPref : List Char → List Char → Bool
  | [], _ => true
  | _ :: _, [] => false
  | p :: ps, c :: cs => p == c && chPref ps cs

/-- Go `strings.HasPrefix s pre`. -/
def strHasPref (s pre : String) : Bool :=
  chPref pre.toList s.toList

/-- Model of Go `unicode.IsSpace` on the code points relevant here
(ASCII whitespace plus NEL and NBSP, as in Go's `unicode.IsSpace`). -/
def goIsSpace (c : Char) : Bool :=
  c == ' ' || c == '\t' || c == '\n' || c == '\x0b' || c == '\x0c' || c == '\r' ||
    c == '\u0085' || c == ' '

/-- Drop leading Go-whitespace characters. -/
def trimLeftChars : List Char → List Char
  | [] => []
  | c :: cs => if goIsSpace c then trimLeftChars cs else c :: cs

/-- Model of Go `strings.TrimSpace` at the character level. -/
def goTrimSpace (s : List Char) : List Char :=
  ((trimLeftChars ((trimLeftChars s).reverse)).reverse)

/-- Model of Go `strings.TrimSpace` on strings. -/
def strTrim (s : String) : String :=
  String.mk (goTrimSpace s.toList)

/-- Model of Go `strings.Split s sep` for a single-character separator
`sep` (the only form the repository uses: `"|"`, `"&"`, `","`, `"/"`). -/
def splitOnChar (sep : Char) : List Char → List (List Char)
  | [] => [[]]
  | c :: cs =>
    match splitOnChar sep cs with
    | [] => [[]]
    | r :: rs => if c == sep then [] :: r :: rs else (c :: r) :: rs

/-- Model of Go `strings.Contains` with a one-character substring. -/
def chContains : List Char → Char → Bool
  | [], _ => false
  | a :: as, c => a == c || chContains as c

/-- Fuel-indexed body of `CommandServer.isAllowedCommand` (part_005
lines 147-179): first the raw `strings.HasPrefix` scan over the allowlist,
then recursive validation of the `"|"`-split parts, then of the
`"&"`-split parts.  The fuel only bounds the recursion; the wrapper
`isAllowedCommand` always supplies enough fuel (each split part is
strictly shorter than the command), so the fuel-0 branch is unreachable
from the wrapper. -/
def cmdAllowedGo (allowed : List (List Char)) : Nat → List Char → Bool
  | 0, _ => false
  | fuel + 1, command =>
    if allowed.any (fun a => chPref a command) then true
    else if chContains command '|' then
      (splitOnChar '|' command).all (fun part => cmdAllowedGo allowed fuel (goTrimSpace part))
    else if chContains command '&' then
      (splitOnChar '&' command).all (fun part => cmdAllowedGo allowed fuel (goTrimSpace part))
    else false

/-- Model of `CommandServer.isAllowedCommand` (part_005 lines 147-179,
identically part_002 lines 160-182 minus the `"&"` case). -/
def isAllowedCommand (allowed : List String) (command : String) : Bool :=
  cmdAllowedGo (allowed.map String.toList) (command.toList.length + 1) command.toList

/-- Model of the allowlist construction in `CommandServer.LoadConfig`
(part_005 line 210): `strings.Split(cc.AllowedCommand, ",")`. -/
def loadAllowedCommands (s : String) : List String :=
  (splitOnChar ',' s.toList).map (fun cs => String.mk cs)

/-- Model of `CommandConfig.Check` (part_005 lines 307-331) restricted to
its allowlist logic (the `PromptFile` branch reads a file and is modelled
here with `PromptFile == ""`): `cnt` starts at the list length, is
decremented once per empty entry, and the check succeeds iff `cnt > 0`.
Returns `true` for success, `false` for the `no allowed commands
specified` error. -/
def CommandConfig.Check (allowedCommands : List String) : Bool :=
  let cnt := allowedCommands.foldl (fun n cmd => if cmd = "" then n - 1 else n)
    allowedCommands.length
  decide (0 < cnt)

/-! ## Path model

The filesystem side models `path/filepath` lexically.  All paths that the
repository's guard code hands to these helpers are absolute (the guard
converts with `filepath.Abs` first), so the helpers are written for
absolute, `/`-separated paths. -/

/-- The non-empty chunks of a path, i.e. its path segments. -/
def segsOf (p : String) : List String :=
  ((splitOnChar '/' p.toList).filter (fun cs => ! cs.isEmpty)).map (fun cs => String.mk cs)

/-- Join segments with `/` separators (no leading separator). -/
def joinSegs : List String → String
  | [] => ""
  | [s] => s
  | s :: t :: rest => s ++ "/" ++ joinSegs (t :: rest)

/-- The absolute path with the given segments. -/
def pathOfSegs (l : List String) : String :=
  "/" ++ joinSegs l

/-- The segment-stack loop of Go `filepath.Clean` on a rooted path:
`.` is elided and `..` pops the last segment (never above the root). -/
def cleanLoop : List String → List String → List String
  | acc, [] => acc
  | acc, s :: rest =>
    if s = "." then cleanLoop acc rest
    else if s = ".." then cleanLoop acc.dropLast rest
    else cleanLoop (acc ++ [s]) rest

/-- Model of Go `filepath.Clean` on an absolute path. -/
def goCleanAbs (p : String) : String :=
  pathOfSegs (cleanLoop [] (segsOf p))

/-- Model of Go `filepath.IsAbs` (Unix): the path starts with the
separator. -/
def isAbs (p : String) : Bool :=
  chPref ['/'] p.toList

/-- A model filesystem node: a directory, a regular file, or a symbolic
link with the given target string. -/
inductive Node where
  | dir : Node
  | file : Node
  | symlink : String → Node
deriving DecidableEq

/-- A model filesystem: the process working directory (absolute) and a
finite association of clean absolute paths (no trailing separator) to
nodes.  The root `/` is implicitly a directory. -/
structure Fs where
  cwd : String
  nodes : List (String × Node)

/-- First-match association lookup, as the OS resolves a path name. -/
def findEntry : List (String × Node) → String → Option Node
  | [], _ => none
  | (k, v) :: rest, p => if k = p then some v else findEntry rest p

/-- Look up the node stored at a clean absolute path; `/` is the root
directory. -/
def lookupNode (fs : Fs) (p : String) : Option Node :=
  if p = "/" then some Node.dir else findEntry fs.nodes p

/-- Model of Go `filepath.Abs`: an absolute input is cleaned, a relative
input is joined to the working directory and cleaned.  (Go's `Abs` fails
only when `Getwd` fails, which the model has no analogue of.) -/
def goAbs (fs : Fs) (p : String) : String :=
  if isAbs p then goCleanAbs p else goCleanAbs (fs.cwd ++ "/" ++ p)

/-- Model of Go `filepath.Dir` on a clean absolute path: drop the final
segment and clean. -/
def goDir (p : String) : String :=
  pathOfSegs (cleanLoop [] (segsOf p).dropLast)

/-- Model of Go `filepath.Join` on an absolute first component, as used
with the configured `CachePath`: concatenate with a separator and clean. -/
def goJoin (a b : String) : String :=
  goCleanAbs (a ++ "/" ++ b)

/-- Last character of a character list, if any. -/
def chLast : List Char → Option Char
  | [] => none
  | [c] => some c
  | _ :: c :: cs => chLast (c :: cs)

/-- Go `strings.HasSuffix(s, string(filepath.Separator))`. -/
def strHasSuffixSep (s : String) : Bool :=
  chLast s.toList == some '/'

/-- Errors of the symlink walk: the Go errors for which
`os.IsNotExist` answers true (`notExist`), `ENOTDIR` (`notDir`), and the
`too many links` error (`tooManyLinks`). -/
inductive ResolveErr where
  | notExist : ResolveErr
  | notDir : ResolveErr
  | tooManyLinks : ResolveErr
deriving DecidableEq

/-- One pass of the symlink walk of Go `filepath.EvalSymlinks`: consume
segments left to right against the already-resolved prefix `acc`
(as segments); on the first symbolic link, return (`Sum.inr`) the state
from which the walk restarts with the link target substituted.  `.` is
skipped and `..` pops the resolved prefix, as in Go's `walkSymlinks`. -/
def resolvePass (fs : Fs) : List String → List String → Except ResolveErr (List String) ⊕ (List String × List String)
  | acc, [] => Sum.inl (Except.ok acc)
  | acc, seg :: rest =>
    if seg = "." then resolvePass fs acc rest
    else if seg = ".." then resolvePass fs acc.dropLast rest
    else
      match lookupNode fs (pathOfSegs (acc ++ [seg])) with
      | none => Sum.inl (Except.error ResolveErr.notExist)
      | some Node.file =>
        if rest.isEmpty then Sum.inl (Except.ok (acc ++ [seg]))
        else Sum.inl (Except.error ResolveErr.notDir)
      | some Node.dir => resolvePass fs (acc ++ [seg]) rest
      | some (Node.symlink target) =>
        if isAbs target then Sum.inr ([], segsOf target ++ rest)
        else Sum.inr (acc, segsOf target ++ rest)

/-- Iterate `resolvePass`, spending one unit of fuel per symbolic-link
substitution; once the fuel is exhausted a further link yields the
`too many links` error, mirroring Go's 255-hop limit. -/
def resolveFuel (fs : Fs) : Nat → List String → List String → Except ResolveErr (List String)
  | 0, acc, segs =>
    match resolvePass fs acc segs with
    | Sum.inl r => r
    | Sum.inr _ => Except.error ResolveErr.tooManyLinks
  | fuel + 1, acc, segs =>
    match resolvePass fs acc segs with
    | Sum.inl r => r
    | Sum.inr (a, s) => resolveFuel fs fuel a s

/-- Model of Go `filepath.EvalSymlinks` on an absolute path (the guard
only ever passes absolute paths): fully resolve every symbolic link,
with Go's limit of 255 link substitutions. -/
def goEvalSymlinks (fs : Fs) (p : String) : Except ResolveErr String :=
  match resolveFuel fs 255 [] (segsOf p) with
  | Except.ok segs => Except.ok (pathOfSegs segs)
  | Except.error e => Except.error e

/-- Model of Go `os.Stat` on an absolute path: resolve symlinks, then
report the node found there. -/
def goStatE (fs : Fs) (p : String) : Except ResolveErr Node :=
  match goEvalSymlinks fs p with
  | Except.error e => Except.error e
  | Except.ok real =>
    match lookupNode fs real with
    | some n => Except.ok n
    | none => Except.error ResolveErr.notExist

/-- `some true` / `some false`: `os.Stat` succeeded and the target is /
is not a directory; `none`: `os.Stat` failed.  (A successful resolution
never lands on a symlink node, so that case also maps to `none`.) -/
def goStatIsDir (fs : Fs) (p : String) : Option Bool :=
  match goStatE fs p with
  | Except.ok Node.dir => some true
  | Except.ok Node.file => some false
  | Except.ok (Node.symlink _) => none
  | Except.error _ => none

/-- Model of `FilesystemServer.isPathInAllowedDirs` (file_system.go
lines 178-203): make the path absolute; unless it already ends in the
separator, replace an existing non-directory by its parent directory and
append a trailing separator; then scan the allowlist with raw
`strings.HasPrefix`. -/
def isPathInAllowedDirs (fs : Fs) (allowed : List String) (path : String) : Bool :=
  let absPath := goAbs fs path
  let cand :=
    if strHasSuffixSep absPath then absPath
    else
      match goStatIsDir fs absPath with
      | some false => goDir absPath ++ "/"
      | _ => absPath ++ "/"
  allowed.any (fun dir => strHasPref cand dir)

/-- The rejection kinds of `FilesystemServer.validatePath`
(file_system.go lines 205-246).  `evalFailed` is the branch that returns
the raw `EvalSymlinks` error when it is not an `IsNotExist` error. -/
inductive PathRejection where
  | outsideAllowedRoots : PathRejection
  | parentMissing : PathRejection
  | parentOutsideAllowedRoots : PathRejection
  | symlinkEscapesRoot : PathRejection
  | evalFailed : ResolveErr → PathRejection
deriving DecidableEq

/-- Model of `FilesystemServer.validatePath` (file_system.go lines
205-246): absolutize, test membership, resolve symlinks; on a
not-exist error validate the resolved parent instead and return the
unresolved absolute path; otherwise re-test the resolved real path and
return it. -/
def validatePath (fs : Fs) (allowed : List String) (requested : String) : Except PathRejection String :=
  let abs := goAbs fs requested
  if ! isPathInAllowedDirs fs allowed abs then Except.error PathRejection.outsideAllowedRoots
  else
    match goEvalSymlinks fs abs with
    | Except.error ResolveErr.notExist =>
      let parent := goDir abs
      match goEvalSymlinks fs parent with
      | Except.error _ => Except.error PathRejection.parentMissing
      | Except.ok realParent =>
        if ! isPathInAllowedDirs fs allowed realParent then
          Except.error PathRejection.parentOutsideAllowedRoots
        else Except.ok abs
    | Except.error e => Except.error (PathRejection.evalFailed e)
    | Except.ok realPath =>
      if ! isPathInAllowedDirs fs allowed realPath then
        Except.error PathRejection.symlinkEscapesRoot
      else Except.ok realPath

/-- Model of `FileSystemConfig.Check` (file_system_config.go lines
92-110) restricted to its directory logic (the `PromptFile` branch is
modelled with `PromptFile == ""`): each allowed directory is trimmed,
made absolute, `os.Stat`-ed (must exist and be a directory, else the
load fails), and normalized to `filepath.Clean(abs) + separator`.
Returns the normalized allowlist on success. -/
def FileSystemConfig.Check (fs : Fs) : List String → Except String (List String)
  | [] => Except.ok []
  | d :: rest =>
    let abs := goAbs fs (strTrim d)
    match goStatIsDir fs abs with
    | none => Except.error ("failed to access directory " ++ abs)
    | some false => Except.error ("path is not a directory: " ++ abs)
    | some true =>
      match FileSystemConfig.Check fs rest with
      | Except.ok ns => Except.ok ((goCleanAbs abs ++ "/") :: ns)
      | Except.error e => Except.error e

/-- The fields of `FileSystemConfig` that `NewFileSystemConfig` sets
(file_system_config.go lines 66-89). -/
structure FileSystemConfigInit where
  AllowedDir : String
  CachePath : String
  allowedDirs : List String
deriving DecidableEq

/-- Model of `NewFileSystemConfig` (file_system_config.go lines 76-89),
with `allowedDirsDefault = os.TempDir()` passed in as `tempDir`: the
`path` argument is split on commas, then `path` is reassigned to the
empty string, so the trim-empty test always selects the default. -/
def NewFileSystemConfig (tempDir path : String) : FileSystemConfigInit :=
  let paths := (splitOnChar ',' path.toList).map (fun cs => String.mk cs)
  let path1 := ""
  let sel := if strTrim path1 = "" then (tempDir, [tempDir]) else (path1, paths)
  { AllowedDir := sel.1, CachePath := sel.1, allowedDirs := sel.2 }

/-! ## Tool handlers (deny path)

The handlers are modelled as pure functions returning the protocol-level
result (just its `IsError` flag and text here) paired with the trace of
OS side effects the Go code would perform. -/

/-- A protocol-level tool result: its error flag and message text. -/
structure ToolResult where
  isError : Bool
  text : String

/-- OS side effects of the command handler. -/
inductive ExecEffect where
  | spawn : String → ExecEffect
deriving DecidableEq

/-- OS side effects of the filesystem handlers. -/
inductive FsEffect where
  | mkdirAll : String → FsEffect
  | writeFile : String → String → FsEffect
  | rename : String → String → FsEffect
deriving DecidableEq

/-- Model of `CommandServer.handleExecuteCommand` (part_005 lines
124-144), with `ExecCommand` abstracted as the oracle `exec` (error
message or output): the command is checked first and a process is
spawned only on an allow decision. -/
def handleExecuteCommand (exec : String → Except String String)
    (allowed : List String) (command : String) : ToolResult × List ExecEffect :=
  if ! isAllowedCommand allowed command then
    ({ isError := true, text := "Error: Command " ++ command ++ " is not allowed" }, [])
  else
    match exec command with
    | Except.error e => ({ isError := true, text := "Error executing command: " ++ e }, [ExecEffect.spawn command])
    | Except.ok output => ({ isError := false, text := output }, [ExecEffect.spawn command])

/-- Model of `FilesystemServer.handleWriteFile` (file_system.go lines
565-629): join to `CachePath`, validate, refuse directories, then
`os.MkdirAll` the parent and `os.WriteFile`. -/
def handleWriteFile (fs : Fs) (allowed : List String) (cachePath path content : String) : ToolResult × List FsEffect :=
  let joined := goJoin cachePath path
  match validatePath fs allowed joined with
  | Except.error _ => ({ isError := true, text := "Error: access denied" }, [])
  | Except.ok validPath =>
    match goStatIsDir fs validPath with
    | some true => ({ isError := true, text := "Error: Cannot write to a directory:" ++ validPath }, [])
    | _ =>
      ({ isError := false, text := "Successfully wrote to " ++ joined },
        [FsEffect.mkdirAll (goDir validPath), FsEffect.writeFile validPath content])

/-- Model of `FilesystemServer.handleMoveFile` (file_system.go lines
755-811): validate the source, require it to exist, validate the
destination, then `os.MkdirAll` the destination parent and `os.Rename`. -/
def handleMoveFile (fs : Fs) (allowed : List String) (source destination : String) : ToolResult × List FsEffect :=
  match validatePath fs allowed source with
  | Except.error _ => ({ isError := true, text := "Error with source path" }, [])
  | Except.ok validSource =>
    match goStatE fs validSource with
    | Except.error ResolveErr.notExist =>
      ({ isError := true, text := "Error: Source does not exist: " ++ source }, [])
    | _ =>
      match validatePath fs allowed destination with
      | Except.error _ => ({ isError := true, text := "Error with destination path" }, [])
      | Except.ok validDest =>
        ({ isError := false, text := "Successfully moved " ++ source ++ " to " ++ destination },
          [FsEffect.mkdirAll (goDir validDest), FsEffect.rename validSource validDest])

/-- Test filesystem: a symbolic link inside an allowed root whose
target lies outside it. -/
def fsEscape : Fs :=
  { cwd := "/",
    nodes := [("/root", Node.dir), ("/outside", Node.dir), ("/outside/t", Node.file),
      ("/root/link", Node.symlink "/outside/t")] }

/-- Test filesystem: sibling directories for the prefix-boundary case. -/
def fsSibling : Fs :=
  { cwd := "/",
    nodes := [("/tmp", Node.dir), ("/tmp/foo", Node.dir), ("/tmp/foobar", Node.dir)] }

/-- Test filesystem: a directory `/other` that is a symbolic link to the
root `/root`, reaching it from outside. -/
def fsOther : Fs :=
  { cwd := "/",
    nodes := [("/root", Node.dir), ("/root/f", Node.file), ("/other", Node.symlink "/root")] }

/-- Test filesystem: a symbolic link to a file, both inside the root. -/
def fsInner : Fs :=
  { cwd := "/",
    nodes := [("/root", Node.dir), ("/root/f", Node.file), ("/root/l", Node.symlink "/root/f")] }

/-- Test filesystem: `/a` is a symbolic link to the directory `/b`. -/
def fsLinkRoot : Fs :=
  { cwd := "/", nodes := [("/b", Node.dir), ("/a", Node.symlink "/b")] }

/-- Success test on an `Except` value. -/
def exceptIsOk {ε α : Type} : Except ε α → Bool
  | Except.ok _ => true
  | Except.error _ => false

/-- A well-formed resolved path segment: non-empty, not a dot segment,
and containing no separator. -/
def GoodSeg (s : String) : Prop :=
  s ≠ "" ∧ s ≠ "." ∧ s ≠ ".." ∧ chContains s.toList '/' = false

/-- The path `pre ++ l` extends `pre` through directory nodes only: the
shape of the accumulator of `resolvePass`. -/
def DirsChain (fs : Fs) : List String → List String → Prop
  | _, [] => True
  | pre, s :: rest =>
    GoodSeg s ∧ lookupNode fs (pathOfSegs (pre ++ [s])) = some Node.dir ∧
      DirsChain fs (pre ++ [s]) rest

/-- The path `pre ++ l` extends `pre` through directories except that
the final segment may be a regular file: the shape of a fully resolved
path. -/
def PlainChain (fs : Fs) : List String → List String → Prop
  | _, [] => True
  | pre, s :: rest =>
    GoodSeg s ∧
      ((lookupNode fs (pathOfSegs (pre ++ [s])) = some Node.dir ∧
          PlainChain fs (pre ++ [s]) rest) ∨
        (lookupNode fs (pathOfSegs (pre ++ [s])) = some Node.file ∧ rest = []))

/-! ## Basic lemmas about the string helpers -/

theorem splitOnChar_ne_nil (sep : Char) (s : List Char) : splitOnChar sep s ≠ [] := by
  cases s with
  | nil => simp [splitOnChar]
  | cons c cs =>
    simp only [splitOnChar]
    cases splitOnChar sep cs with
    | nil => simp
    | cons r rs =>
      by_cases hc : (c == sep) = true <;> simp [hc]

theorem splitOnChar_length_le (sep : Char) (s : List Char) :
    ∀ p ∈ splitOnChar sep s, p.length ≤ s.length := by
  induction s with
  | nil =>
    intro p hp
    simp [splitOnChar] at hp
    simp [hp]
  | cons c cs ih =>
    intro p hp
    simp only [splitOnChar] at hp
    rcases hsplit : splitOnChar sep cs with _ | ⟨r, rs⟩
    · exact absurd hsplit (splitOnChar_ne_nil sep cs)
    · rw [hsplit] at hp
      by_cases hc : (c == sep) = true
      · simp only [hc, if_true] at hp
        rcases List.mem_cons.mp hp with rfl | hp2
        · simp
        · have := ih p (hsplit ▸ hp2)
          simp only [List.length_cons]
          omega
      · simp only [hc, if_false, Bool.false_eq_true] at hp
        rcases List.mem_cons.mp hp with rfl | hp2
        · have hr := ih r (hsplit ▸ List.mem_cons_self r rs)
          simp only [List.length_cons]
          omega
        · have := ih p (hsplit ▸ List.mem_cons_of_mem r hp2)
          simp only [List.length_cons]
          omega

theorem splitOnChar_length_lt (sep : Char) (s : List Char) (hs : chContains s sep = true) :
    ∀ p ∈ splitOnChar sep s, p.length < s.length := by
  induction s with
  | nil => simp [chContains] at hs
  | cons c cs ih =>
    intro p hp
    simp only [splitOnChar] at hp
    rcases hsplit : splitOnChar sep cs with _ | ⟨r, rs⟩
    · exact absurd hsplit (splitOnChar_ne_nil sep cs)
    · rw [hsplit] at hp
      by_cases hc : (c == sep) = true
      · simp only [hc, if_true] at hp
        rcases List.mem_cons.mp hp with rfl | hp2
        · simp
        · have := splitOnChar_length_le sep cs p (hsplit ▸ hp2)
          simp only [List.length_cons]
          omega
      · have hcs : chContains cs sep = true := by
          simp only [chContains, hc, Bool.false_or] at hs
          exact hs
        simp only [hc, if_false, Bool.false_eq_true] at hp
        rcases List.mem_cons.mp hp with rfl | hp2
        · have hr := ih hcs r (hsplit ▸ List.mem_cons_self r rs)
          simp only [List.length_cons]
          omega
        · have := ih hcs p (hsplit ▸ List.mem_cons_of_mem r hp2)
          simp only [List.length_cons]
          omega

theorem trimLeftChars_length_le (s : List Char) : (trimLeftChars s).length ≤ s.length := by
  induction s with
  | nil => simp [trimLeftChars]
  | cons c cs ih =>
    simp only [trimLeftChars]
    by_cases h : goIsSpace c = true
    · simp only [h, if_true, List.length_cons]
      omega
    · simp [h]

theorem goTrimSpace_length_le (s : List Char) : (goTrimSpace s).length ≤ s.length := by
  unfold goTrimSpace
  have h1 := trimLeftChars_length_le s
  have h2 := trimLeftChars_length_le (trimLeftChars s).reverse
  simp only [List.length_reverse] at h2 ⊢
  omega

theorem listAllCongr {α : Type} {l : List α} {f g : α → Bool}
    (h : ∀ x ∈ l, f x = g x) : l.all f = l.all g := by
  induction l with
  | nil => rfl
  | cons a as ih =>
    simp only [List.all_cons]
    rw [h a (List.mem_cons_self a as), ih (fun x hx => h x (List.mem_cons_of_mem a hx))]

theorem listAllMap {α β : Type} (l : List α) (f : α → β) (p : β → Bool) :
    (l.map f).all p = l.all (fun x => p (f x)) := by
  induction l with
  | nil => rfl
  | cons a as ih => simp only [List.map_cons, List.all_cons, ih]

/-- The one-step unfolding of `cmdAllowedGo` at positive fuel. -/
theorem cmdAllowedGo_succ (A : List (List Char)) (fuel : Nat) (command : List Char) :
    cmdAllowedGo A (fuel + 1) command =
      if A.any (fun a => chPref a command) then true
      else if chContains command '|' then
        (splitOnChar '|' command).all (fun part => cmdAllowedGo A fuel (goTrimSpace part))
      else if chContains command '&' then
        (splitOnChar '&' command).all (fun part => cmdAllowedGo A fuel (goTrimSpace part))
      else false := rfl

theorem cmdAllowedGo_fuel (A : List (List Char)) (f₁ : Nat) :
    ∀ f₂ cmd, cmd.length < f₁ → cmd.length < f₂ →
      cmdAllowedGo A f₁ cmd = cmdAllowedGo A f₂ cmd := by
  induction f₁ with
  | zero =>
    intro f₂ cmd h1 h2
    omega
  | succ f ih =>
    intro f₂ cmd h1 h2
    cases f₂ with
    | zero => omega
    | succ g =>
      simp only [cmdAllowedGo]
      by_cases hany : (A.any fun a => chPref a cmd) = true
      · simp [hany]
      · by_cases hp : chContains cmd '|' = true
        · simp only [hany, hp, if_true, if_false, Bool.false_eq_true]
          refine listAllCongr ?_
          intro part hpart
          have hlt := splitOnChar_length_lt '|' cmd hp part hpart
          have htr := goTrimSpace_length_le part
          exact ih g (goTrimSpace part) (by omega) (by omega)
        · by_cases hq : chContains cmd '&' = true
          · simp only [hany, hp, hq, if_true, if_false, Bool.false_eq_true]
            refine listAllCongr ?_
            intro part hpart
            have hlt := splitOnChar_length_lt '&' cmd hq part hpart
            have htr := goTrimSpace_length_le part
            exact ih g (goTrimSpace part) (by omega) (by omega)
          · simp [hany, hp, hq]

/-! ## Lemmas about the path model: resolved paths are fixpoints -/

theorem strToList_append (a b : String) : (a ++ b).toList = a.toList ++ b.toList := by
  cases a
  cases b
  rfl

theorem strToList_eq_nil {s : String} : s.toList = [] ↔ s = "" := by
  cases s with
  | mk data =>
    cases data with
    | nil => simp [String.toList]
    | cons c cs =>
      simp only [String.toList]
      constructor
      · intro h
        exact absurd h (by simp)
      · intro h
        exact absurd h (by simp [String.ext_iff])

theorem strMk_toList (s : String) : String.mk s.toList = s := rfl

theorem splitOnChar_sep_cons (sep : Char) (cs : List Char) :
    splitOnChar sep (sep :: cs) = [] :: splitOnChar sep cs := by
  simp only [splitOnChar]
  rcases h : splitOnChar sep cs with _ | ⟨r, rs⟩
  · exact absurd h (splitOnChar_ne_nil sep cs)
  · simp

theorem splitOnChar_no_sep (sep : Char) (cs : List Char) (h : chContains cs sep = false) :
    splitOnChar sep cs = [cs] := by
  induction cs with
  | nil => rfl
  | cons c cs ih =>
    simp only [chContains, Bool.or_eq_false_iff] at h
    simp only [splitOnChar, ih h.2, h.1, Bool.false_eq_true, if_false]

theorem splitOnChar_append_sep (sep : Char) (cs ds : List Char)
    (h : chContains cs sep = false) :
    splitOnChar sep (cs ++ sep :: ds) = cs :: splitOnChar sep ds := by
  induction cs with
  | nil => simpa using splitOnChar_sep_cons sep ds
  | cons c cs ih =>
    simp only [chContains, Bool.or_eq_false_iff] at h
    rw [List.cons_append, splitOnChar, ih h.2]
    simp [h.1]

theorem splitOnChar_not_contains (sep : Char) (s : List Char) :
    ∀ cs ∈ splitOnChar sep s, chContains cs sep = false := by
  induction s with
  | nil =>
    intro cs hcs
    simp [splitOnChar] at hcs
    simp [hcs, chContains]
  | cons c s ih =>
    intro cs hcs
    simp only [splitOnChar] at hcs
    rcases hsplit : splitOnChar sep s with _ | ⟨r, rs⟩
    · exact absurd hsplit (splitOnChar_ne_nil sep s)
    · rw [hsplit] at hcs
      by_cases hc : (c == sep) = true
      · simp only [hc, if_true] at hcs
        rcases List.mem_cons.mp hcs with rfl | hcs2
        · rfl
        · exact ih cs (hsplit ▸ hcs2)
      · simp only [hc, if_false, Bool.false_eq_true] at hcs
        rcases List.mem_cons.mp hcs with rfl | hcs2
        · have hr : chContains r sep = false := ih r (hsplit ▸ List.mem_cons_self r rs)
          simp only [chContains, hr, hc, Bool.or_self]
        · exact ih cs (hsplit ▸ List.mem_cons_of_mem r hcs2)

theorem segsOf_base (p : String) :
    ∀ s ∈ segsOf p, s ≠ "" ∧ chContains s.toList '/' = false := by
  intro s hs
  simp only [segsOf, List.mem_map] at hs
  obtain ⟨cs, hmem, rfl⟩ := hs
  obtain ⟨hin, hne⟩ := List.mem_filter.mp hmem
  constructor
  · intro hcontra
    have : cs = [] := by
      have h1 : (String.mk cs).toList = cs := rfl
      rw [hcontra] at h1
      exact h1.symm
    rw [this] at hne
    simp [List.isEmpty] at hne
  · exact splitOnChar_not_contains '/' p.toList cs hin

theorem rawSegs_pathOfSegs :
    ∀ l : List String, (∀ s ∈ l, s ≠ "" ∧ chContains s.toList '/' = false) →
      (splitOnChar '/' (pathOfSegs l).toList).filter (fun cs => ! cs.isEmpty) =
        l.map String.toList := by
  intro l
  induction l with
  | nil =>
    intro _
    rfl
  | cons s rest ih =>
    intro h
    have hs := h s (List.mem_cons_self s rest)
    have hsl : s.toList ≠ [] := fun hctr => hs.1 (strToList_eq_nil.mp hctr)
    have hskeep : (! s.toList.isEmpty) = true := by
      cases hcs : s.toList with
      | nil => exact absurd hcs hsl
      | cons a as => simp [List.isEmpty]
    cases rest with
    | nil =>
      have h1 : (pathOfSegs [s]).toList = '/' :: s.toList := by
        simp [pathOfSegs, joinSegs, strToList_append]
      rw [h1, splitOnChar_sep_cons, splitOnChar_no_sep '/' s.toList hs.2]
      simp only [List.filter_cons, List.isEmpty_nil, Bool.not_true, Bool.false_eq_true,
        if_false, List.map_cons, List.map_nil]
      rw [if_pos hskeep]
      rfl
    | cons t ts =>
      have h1 : (pathOfSegs (s :: t :: ts)).toList =
          '/' :: (s.toList ++ '/' :: (joinSegs (t :: ts)).toList) := by
        show ("/" ++ (s ++ "/" ++ joinSegs (t :: ts))).toList = _
        simp [strToList_append, List.append_assoc]
      have h2 : (pathOfSegs (t :: ts)).toList = '/' :: (joinSegs (t :: ts)).toList := by
        show ("/" ++ joinSegs (t :: ts)).toList = _
        simp [strToList_append]
      have hIH := ih (fun x hx => h x (List.mem_cons_of_mem s hx))
      rw [h2, splitOnChar_sep_cons] at hIH
      simp only [List.filter_cons, List.isEmpty_nil, Bool.not_true, Bool.false_eq_true,
        if_false] at hIH
      rw [h1, splitOnChar_sep_cons, splitOnChar_append_sep '/' s.toList _ hs.2]
      simp only [List.filter_cons, List.isEmpty_nil, Bool.not_true, Bool.false_eq_true,
        if_false, List.map_cons]
      rw [if_pos hskeep]
      rw [hIH]
      rfl

theorem segsOf_pathOfSegs (l : List String)
    (h : ∀ s ∈ l, s ≠ "" ∧ chContains s.toList '/' = false) :
    segsOf (pathOfSegs l) = l := by
  simp only [segsOf]
  rw [rawSegs_pathOfSegs l h]
  rw [List.map_map]
  have : (fun cs => String.mk cs) ∘ String.toList = id := by
    funext s
    exact strMk_toList s
  rw [this, List.map_id]

theorem cleanLoop_no_dots :
    ∀ (l acc : List String), (∀ s ∈ l, s ≠ "." ∧ s ≠ "..") → cleanLoop acc l = acc ++ l := by
  intro l
  induction l with
  | nil => intro acc _; simp [cleanLoop]
  | cons s rest ih =>
    intro acc h
    have hs := h s (List.mem_cons_self s rest)
    simp only [cleanLoop, if_neg hs.1, if_neg hs.2]
    rw [ih (acc ++ [s]) (fun x hx => h x (List.mem_cons_of_mem s hx))]
    simp

theorem isAbs_pathOfSegs (l : List String) : isAbs (pathOfSegs l) = true := by
  have h1 : (pathOfSegs l).toList = '/' :: (joinSegs l).toList := by
    show ("/" ++ joinSegs l).toList = _
    simp [strToList_append]
  simp only [isAbs]
  rw [h1]
  rfl

theorem goAbs_pathOfSegs (fs : Fs) (l : List String)
    (h : ∀ s ∈ l, GoodSeg s) :
    goAbs fs (pathOfSegs l) = pathOfSegs l := by
  simp only [goAbs, isAbs_pathOfSegs, if_true]
  simp only [goCleanAbs]
  rw [segsOf_pathOfSegs l (fun s hs => ⟨(h s hs).1, (h s hs).2.2.2⟩)]
  rw [cleanLoop_no_dots l [] (fun s hs => ⟨(h s hs).2.1, (h s hs).2.2.1⟩)]
  simp

theorem dirsChain_to_plain (fs : Fs) :
    ∀ (l pre : List String), DirsChain fs pre l → PlainChain fs pre l := by
  intro l
  induction l with
  | nil =>
    intro pre _
    exact True.intro
  | cons s rest ih =>
    intro pre h
    obtain ⟨hg, hlk, hrest⟩ := h
    exact ⟨hg, Or.inl ⟨hlk, ih (pre ++ [s]) hrest⟩⟩

theorem dirsChain_dropLast (fs : Fs) :
    ∀ (l pre : List String), DirsChain fs pre l → DirsChain fs pre l.dropLast := by
  intro l
  induction l with
  | nil =>
    intro pre h
    exact h
  | cons s rest ih =>
    intro pre h
    obtain ⟨hg, hlk, hrest⟩ := h
    cases rest with
    | nil => exact True.intro
    | cons t ts => exact ⟨hg, hlk, ih (pre ++ [s]) hrest⟩

theorem dirsChain_snoc_dir (fs : Fs) :
    ∀ (l pre : List String) (s : String), DirsChain fs pre l → GoodSeg s →
      lookupNode fs (pathOfSegs (pre ++ l ++ [s])) = some Node.dir →
      DirsChain fs pre (l ++ [s]) := by
  intro l
  induction l with
  | nil =>
    intro pre s _ hg hlk
    refine ⟨hg, ?_, True.intro⟩
    simpa using hlk
  | cons a as ih =>
    intro pre s h hg hlk
    obtain ⟨hga, hlka, hrest⟩ := h
    refine ⟨hga, hlka, ?_⟩
    refine ih (pre ++ [a]) s hrest hg ?_
    have hEq : pre ++ [a] ++ as ++ [s] = pre ++ a :: as ++ [s] := by simp
    rw [hEq]
    exact hlk

theorem plainChain_snoc_file (fs : Fs) :
    ∀ (l pre : List String) (s : String), DirsChain fs pre l → GoodSeg s →
      lookupNode fs (pathOfSegs (pre ++ l ++ [s])) = some Node.file →
      PlainChain fs pre (l ++ [s]) := by
  intro l
  induction l with
  | nil =>
    intro pre s _ hg hlk
    refine ⟨hg, Or.inr ⟨?_, rfl⟩⟩
    simpa using hlk
  | cons a as ih =>
    intro pre s h hg hlk
    obtain ⟨hga, hlka, hrest⟩ := h
    refine ⟨hga, Or.inl ⟨hlka, ?_⟩⟩
    refine ih (pre ++ [a]) s hrest hg ?_
    have hEq : pre ++ [a] ++ as ++ [s] = pre ++ a :: as ++ [s] := by simp
    rw [hEq]
    exact hlk

theorem plainChain_good (fs : Fs) :
    ∀ (l pre : List String), PlainChain fs pre l → ∀ s ∈ l, GoodSeg s := by
  intro l
  induction l with
  | nil =>
    intro pre _ s hs
    exact absurd hs (List.not_mem_nil s)
  | cons a as ih =>
    intro pre h s hs
    obtain ⟨hg, hor⟩ := h
    rcases List.mem_cons.mp hs with rfl | hs2
    · exact hg
    · rcases hor with ⟨_, hrest⟩ | ⟨_, hnil⟩
      · exact ih (pre ++ [a]) hrest s hs2
      · rw [hnil] at hs2
        exact absurd hs2 (List.not_mem_nil s)

theorem resolvePass_inv (fs : Fs) :
    ∀ (segs acc : List String), DirsChain fs [] acc →
      (∀ s ∈ segs, s ≠ "" ∧ chContains s.toList '/' = false) →
      (∀ r, resolvePass fs acc segs = Sum.inl (Except.ok r) → PlainChain fs [] r) ∧
      (∀ a s2, resolvePass fs acc segs = Sum.inr (a, s2) →
        DirsChain fs [] a ∧ ∀ x ∈ s2, x ≠ "" ∧ chContains x.toList '/' = false) := by
  intro segs
  induction segs with
  | nil =>
    intro acc hacc hsegs
    constructor
    · intro r hr
      simp only [resolvePass] at hr
      simp only [Sum.inl.injEq, Except.ok.injEq] at hr
      rw [← hr]
      exact dirsChain_to_plain fs acc [] hacc
    · intro a s2 hr
      simp only [resolvePass] at hr
      exact absurd hr (by simp)
  | cons seg rest ih =>
    intro acc hacc hsegs
    have hseg := hsegs seg (List.mem_cons_self seg rest)
    have hrest : ∀ s ∈ rest, s ≠ "" ∧ chContains s.toList '/' = false :=
      fun s hs => hsegs s (List.mem_cons_of_mem seg hs)
    by_cases hdot : seg = "."
    · have hred : resolvePass fs acc (seg :: rest) = resolvePass fs acc rest := by
        simp [resolvePass, hdot]
      rw [hred]
      exact ih acc hacc hrest
    · by_cases hdd : seg = ".."
      · have hred : resolvePass fs acc (seg :: rest) = resolvePass fs acc.dropLast rest := by
          simp [resolvePass, hdot, hdd]
        rw [hred]
        exact ih acc.dropLast (dirsChain_dropLast fs acc [] hacc) hrest
      · have hgood : GoodSeg seg := ⟨hseg.1, hdot, hdd, hseg.2⟩
        rcases hlk : lookupNode fs (pathOfSegs (acc ++ [seg])) with _ | node
        · have hred : resolvePass fs acc (seg :: rest) =
              Sum.inl (Except.error ResolveErr.notExist) := by
            simp [resolvePass, hdot, hdd, hlk]
          rw [hred]
          constructor
          · intro r hr
            simp only [Sum.inl.injEq] at hr
            exact absurd hr (by simp)
          · intro a s2 hr
            exact absurd hr (by simp)
        · cases node with
          | file =>
            have hred : resolvePass fs acc (seg :: rest) =
                if rest.isEmpty then Sum.inl (Except.ok (acc ++ [seg]))
                else Sum.inl (Except.error ResolveErr.notDir) := by
              simp [resolvePass, hdot, hdd, hlk]
            rw [hred]
            cases rest with
            | nil =>
              constructor
              · intro r hr
                simp only [List.isEmpty_nil, if_true, Sum.inl.injEq, Except.ok.injEq] at hr
                rw [← hr]
                exact plainChain_snoc_file fs acc [] seg hacc hgood (by simpa using hlk)
              · intro a s2 hr
                simp only [List.isEmpty_nil, if_true] at hr
                exact absurd hr (by simp)
            | cons t ts =>
              constructor
              · intro r hr
                simp only [List.isEmpty_cons, Bool.false_eq_true, if_false,
                  Sum.inl.injEq] at hr
                exact absurd hr (by simp)
              · intro a s2 hr
                simp only [List.isEmpty_cons, Bool.false_eq_true, if_false] at hr
                exact absurd hr (by simp)
          | dir =>
            have hred : resolvePass fs acc (seg :: rest) =
                resolvePass fs (acc ++ [seg]) rest := by
              simp [resolvePass, hdot, hdd, hlk]
            rw [hred]
            exact ih (acc ++ [seg])
              (dirsChain_snoc_dir fs acc [] seg hacc hgood (by simpa using hlk)) hrest
          | symlink target =>
            have hred : resolvePass fs acc (seg :: rest) =
                (if isAbs target then Sum.inr ([], segsOf target ++ rest)
                 else Sum.inr (acc, segsOf target ++ rest)) := by
              simp [resolvePass, hdot, hdd, hlk]
            rw [hred]
            have htail : ∀ x ∈ segsOf target ++ rest,
                x ≠ "" ∧ chContains x.toList '/' = false := by
              intro x hx
              rcases List.mem_append.mp hx with hx1 | hx2
              · exact segsOf_base target x hx1
              · exact hrest x hx2
            by_cases habs : isAbs target = true
            · rw [if_pos habs]
              constructor
              · intro r hr
                exact absurd hr (by simp)
              · intro a s2 hr
                simp only [Sum.inr.injEq, Prod.mk.injEq] at hr
                rw [← hr.1, ← hr.2]
                exact ⟨True.intro, htail⟩
            · rw [if_neg habs]
              constructor
              · intro r hr
                exact absurd hr (by simp)
              · intro a s2 hr
                simp only [Sum.inr.injEq, Prod.mk.injEq] at hr
                rw [← hr.1, ← hr.2]
                exact ⟨hacc, htail⟩

theorem resolveFuel_plain (fs : Fs) :
    ∀ (fuel : Nat) (acc segs : List String) (r : List String), DirsChain fs [] acc →
      (∀ s ∈ segs, s ≠ "" ∧ chContains s.toList '/' = false) →
      resolveFuel fs fuel acc segs = Except.ok r → PlainChain fs [] r := by
  intro fuel
  induction fuel with
  | zero =>
    intro acc segs r hacc hsegs hr
    simp only [resolveFuel] at hr
    rcases hp : resolvePass fs acc segs with v | pr
    · rw [hp] at hr
      have hv : v = Except.ok r := hr
      exact (resolvePass_inv fs segs acc hacc hsegs).1 r (by rw [hp, hv])
    · rw [hp] at hr
      have hcontra : Except.error ResolveErr.tooManyLinks = Except.ok r := hr
      exact absurd hcontra (by simp)
  | succ f ih =>
    intro acc segs r hacc hsegs hr
    simp only [resolveFuel] at hr
    rcases hp : resolvePass fs acc segs with v | ⟨a, s2⟩
    · rw [hp] at hr
      have hv : v = Except.ok r := hr
      exact (resolvePass_inv fs segs acc hacc hsegs).1 r (by rw [hp, hv])
    · rw [hp] at hr
      have hv : resolveFuel fs f a s2 = Except.ok r := hr
      have hinv := (resolvePass_inv fs segs acc hacc hsegs).2 a s2 hp
      exact ih a s2 r hinv.1 hinv.2 hv

theorem plainChain_resolvePass (fs : Fs) :
    ∀ (segs pre : List String), PlainChain fs pre segs →
      resolvePass fs pre segs = Sum.inl (Except.ok (pre ++ segs)) := by
  intro segs
  induction segs with
  | nil =>
    intro pre _
    simp [resolvePass]
  | cons s rest ih =>
    intro pre h
    obtain ⟨hg, hor⟩ := h
    obtain ⟨hne, hdot, hdd, hsl⟩ := hg
    rcases hor with ⟨hlk, hrest⟩ | ⟨hlk, hrestnil⟩
    · have hred : resolvePass fs pre (s :: rest) = resolvePass fs (pre ++ [s]) rest := by
        simp [resolvePass, hdot, hdd, hlk]
      rw [hred, ih (pre ++ [s]) hrest]
      rw [← List.append_cons pre s rest]
    · rw [hrestnil]
      have hred : resolvePass fs pre [s] = Sum.inl (Except.ok (pre ++ [s])) := by
        simp [resolvePass, hdot, hdd, hlk]
      rw [hred]

theorem plainChain_resolveFuel (fs : Fs) (segs : List String) (h : PlainChain fs [] segs) :
    ∀ fuel, resolveFuel fs fuel [] segs = Except.ok segs := by
  intro fuel
  cases fuel with
  | zero =>
    simp only [resolveFuel, plainChain_resolvePass fs segs [] h]
    rw [List.nil_append]
  | succ f =>
    simp only [resolveFuel, plainChain_resolvePass fs segs [] h]
    rw [List.nil_append]

/-! ## Claims C1, C2, C3: the command guard -/

/-- C1 counterexample: with allowlist `{"ls"}` the compound command
`"ls | rm x"` is approved by `isAllowedCommand` even though its
sub-command `"rm x"` is rejected, because the raw `strings.HasPrefix`
scan over the whole line fires before any splitting; so `validate` is
not the logical AND of the sub-command decisions. -/
theorem isAllowedCommand_compound_prefix_shortcut :
    isAllowedCommand ["ls"] "ls | rm x" = true ∧ isAllowedCommand ["ls"] "rm x" = false :=
  ⟨rfl, rfl⟩

/-- C1 (amended): when no allowlist entry is a raw string prefix of the
whole command line, a line containing `'|'` is approved exactly when
every whitespace-trimmed `'|'`-split part is recursively approved, and a
line containing `'&'` but no `'|'` is approved exactly when every
trimmed `'&'`-split part is; when some entry is a prefix of the whole
line the command is approved outright, without examining sub-commands. -/
theorem isAllowedCommand_compound_spec (allowed : List String) (cmd : String)
    (hnp : ((allowed.map String.toList).any fun a => chPref a cmd.toList) = false) :
    (chContains cmd.toList '|' = true →
      isAllowedCommand allowed cmd =
        ((splitOnChar '|' cmd.toList).map (fun part => String.mk (goTrimSpace part))).all
          (fun sub => isAllowedCommand allowed sub)) ∧
    (chContains cmd.toList '|' = false → chContains cmd.toList '&' = true →
      isAllowedCommand allowed cmd =
        ((splitOnChar '&' cmd.toList).map (fun part => String.mk (goTrimSpace part))).all
          (fun sub => isAllowedCommand allowed sub)) := by
  constructor
  · intro hpipe
    show cmdAllowedGo (allowed.map String.toList) (cmd.toList.length + 1) cmd.toList = _
    rw [cmdAllowedGo_succ, listAllMap]
    simp only [hnp, hpipe, if_true, if_false, Bool.false_eq_true]
    refine listAllCongr ?_
    intro part hpart
    have hlt := splitOnChar_length_lt '|' cmd.toList hpipe part hpart
    have htr := goTrimSpace_length_le part
    exact cmdAllowedGo_fuel (allowed.map String.toList) cmd.toList.length
      ((goTrimSpace part).length + 1) (goTrimSpace part) (by omega) (by omega)
  · intro hpipe hamp
    show cmdAllowedGo (allowed.map String.toList) (cmd.toList.length + 1) cmd.toList = _
    rw [cmdAllowedGo_succ, listAllMap]
    simp only [hnp, hpipe, hamp, if_true, if_false, Bool.false_eq_true]
    refine listAllCongr ?_
    intro part hpart
    have hlt := splitOnChar_length_lt '&' cmd.toList hamp part hpart
    have htr := goTrimSpace_length_le part
    exact cmdAllowedGo_fuel (allowed.map String.toList) cmd.toList.length
      ((goTrimSpace part).length + 1) (goTrimSpace part) (by omega) (by omega)

/-- C1 witness: with allowlist `{"grep"}` (no entry a prefix of the
whole line), `"ls | grep foo"` is decided exactly by the AND over its
trimmed sub-commands — and is therefore rejected, since `"ls"` is not
allowlisted. -/
theorem isAllowedCommand_compound_spec_witness :
    ((["grep"].map String.toList).any fun a => chPref a "ls | grep foo".toList) = false ∧
    isAllowedCommand ["grep"] "ls | grep foo" =
      ((splitOnChar '|' "ls | grep foo".toList).map (fun part => String.mk (goTrimSpace part))).all
        (fun sub => isAllowedCommand ["grep"] sub) ∧
    isAllowedCommand ["grep"] "ls | grep foo" = false :=
  ⟨rfl, (isAllowedCommand_compound_spec ["grep"] "ls | grep foo" rfl).1 rfl, rfl⟩

/-- C2: the code evaluated at the spec's token-boundary regression
input.  With allowlist `{"ls"}`, `isAllowedCommand` approves
`"lsblk -a"`, because the allowlist scan uses raw `strings.HasPrefix`
on the whole command line rather than comparing the first
whitespace-delimited token; the spec requires this input to be
rejected. -/
theorem isAllowedCommand_lsblk : isAllowedCommand ["ls"] "lsblk -a" = true := rfl

/-- C3: if the comma-split allowlist contains an empty entry (for
example from a trailing comma) together with at least one non-empty
entry, then `CommandConfig.Check` succeeds — it only counts the empty
entries, leaving them in the list — and `isAllowedCommand` subsequently
approves every command whatsoever, because the empty string is a
`strings.HasPrefix` prefix of everything. -/
theorem commandConfig_empty_entry_allows_all (s : String)
    (h1 : "" ∈ loadAllowedCommands s)
    (h2 : ∃ c ∈ loadAllowedCommands s, c ≠ "") :
    CommandConfig.Check (loadAllowedCommands s) = true ∧
    ∀ cmd : String, isAllowedCommand (loadAllowedCommands s) cmd = true := by
  constructor
  · have hfold : ∀ (l : List String) (n : Nat), l.countP (fun c => decide (c = "")) ≤ n →
        l.foldl (fun n cmd => if cmd = "" then n - 1 else n) n =
          n - l.countP (fun c => decide (c = "")) := by
      intro l
      induction l with
      | nil => intro n _; simp
      | cons c cs ih =>
        intro n hn
        by_cases hc : c = ""
        · have hd : (decide (c = "") : Bool) = true := by simp [hc]
          simp only [List.countP_cons, hd, if_true] at hn ⊢
          simp only [List.foldl_cons, if_pos hc]
          rw [ih (n - 1) (by omega)]
          omega
        · have hd : (decide (c = "") : Bool) = false := by simp [hc]
          simp only [List.countP_cons, hd, Bool.false_eq_true, if_false] at hn ⊢
          simp only [List.foldl_cons, if_neg hc]
          rw [ih n (by omega)]
          omega
    have hcount : (loadAllowedCommands s).countP (fun c => decide (c = "")) <
        (loadAllowedCommands s).length := by
      rcases h2 with ⟨c, hc, hcne⟩
      have hle := List.countP_le_length (p := fun c => decide (c = ""))
        (l := loadAllowedCommands s)
      rcases Nat.lt_or_ge ((loadAllowedCommands s).countP (fun c => decide (c = "")))
        (loadAllowedCommands s).length with h | h
      · exact h
      · exfalso
        have heq : (loadAllowedCommands s).countP (fun c => decide (c = "")) =
            (loadAllowedCommands s).length := by omega
        have := List.countP_eq_length.mp heq c hc
        simp at this
        exact hcne this
    simp only [CommandConfig.Check]
    rw [hfold (loadAllowedCommands s) (loadAllowedCommands s).length (List.countP_le_length _)]
    simp only [decide_eq_true_eq]
    omega
  · intro cmd
    have hmem : ([] : List Char) ∈ (loadAllowedCommands s).map String.toList := by
      refine List.mem_map.mpr ⟨"", h1, rfl⟩
    have hany : (((loadAllowedCommands s).map String.toList).any fun a =>
        chPref a cmd.toList) = true := by
      refine List.any_eq_true.mpr ⟨[], hmem, rfl⟩
    simp only [isAllowedCommand, cmdAllowedGo, hany, if_true]

/-! ## Claims C4, C6, C7: the path guard's rejection branches -/

/-- C4: whenever the requested path passes the initial membership test
and its fully symlink-resolved real path exists but fails the
re-membership test, `validatePath` rejects with the symlink-escape
error (`access denied - symlink target outside allowed directories`). -/
theorem validatePath_symlink_escape (fs : Fs) (allowed : List String) (p real : String)
    (h1 : isPathInAllowedDirs fs allowed (goAbs fs p) = true)
    (h2 : goEvalSymlinks fs (goAbs fs p) = Except.ok real)
    (h3 : isPathInAllowedDirs fs allowed real = false) :
    validatePath fs allowed p = Except.error PathRejection.symlinkEscapesRoot := by
  simp only [validatePath, h1, Bool.not_true, if_false, Bool.false_eq_true, h2, h3,
    Bool.not_false, if_true]

/-- C4 witness: `/root/link` is a symbolic link inside the allowed root
`/root/` pointing at `/outside/t`; validating a path through it is
rejected as a symlink escape. -/
theorem validatePath_symlink_escape_witness :
    isPathInAllowedDirs fsEscape ["/root/"] (goAbs fsEscape "/root/link") = true ∧
    goEvalSymlinks fsEscape (goAbs fsEscape "/root/link") = Except.ok "/outside/t" ∧
    isPathInAllowedDirs fsEscape ["/root/"] "/outside/t" = false ∧
    validatePath fsEscape ["/root/"] "/root/link" = Except.error PathRejection.symlinkEscapesRoot :=
  ⟨rfl, rfl, rfl, validatePath_symlink_escape fsEscape ["/root/"] "/root/link" "/outside/t" rfl rfl rfl⟩

/-- C6: whenever the absolutized requested path fails the membership
test against every allowed root (the test appends a trailing separator
to the candidate — or to its parent directory, for an existing
non-directory — and compares against the separator-terminated roots),
`validatePath` rejects with the outside-allowed-directories error. -/
theorem validatePath_outside_rejected (fs : Fs) (allowed : List String) (p : String)
    (h : isPathInAllowedDirs fs allowed (goAbs fs p) = false) :
    validatePath fs allowed p = Except.error PathRejection.outsideAllowedRoots := by
  simp only [validatePath, h, Bool.not_false, if_true]

/-- C6 witness: the spec's prefix-boundary case.  With allowed root
`/tmp/foo/`, the sibling path `/tmp/foobar/x` fails the membership test
(its separator-terminated form `/tmp/foobar/x/` does not have
`/tmp/foo/` as a prefix) and is rejected, never approved. -/
theorem validatePath_outside_rejected_witness :
    isPathInAllowedDirs fsSibling ["/tmp/foo/"] (goAbs fsSibling "/tmp/foobar/x") = false ∧
    validatePath fsSibling ["/tmp/foo/"] "/tmp/foobar/x" = Except.error PathRejection.outsideAllowedRoots :=
  ⟨rfl, validatePath_outside_rejected fsSibling ["/tmp/foo/"] "/tmp/foobar/x" rfl⟩

/-- C7 counterexample: `/other` is a symbolic link to the allowed root
`/root`, and `/other/x` does not exist.  The symlink-resolved parent
directory of `/other/x` is `/root`, which is inside the allowed root,
so the claim requires Approved; but `validatePath` rejects the request
with the outside-allowed-directories error, because the new-file branch
is only reached after the initial membership test on the unresolved
absolute path. -/
theorem validatePath_newfile_prefix_gate :
    goEvalSymlinks fsOther (goAbs fsOther "/other/x") = Except.error ResolveErr.notExist ∧
    goEvalSymlinks fsOther (goDir (goAbs fsOther "/other/x")) = Except.ok "/root" ∧
    isPathInAllowedDirs fsOther ["/root/"] "/root" = true ∧
    validatePath fsOther ["/root/"] "/other/x" = Except.error PathRejection.outsideAllowedRoots :=
  ⟨rfl, rfl, rfl, rfl⟩

/-- C7 (amended): for a requested path that passes the initial
membership test and whose target does not yet exist, `validatePath`
resolves the parent directory instead: a parent that fails to resolve
yields the parent-missing rejection, a resolved parent inside an
allowed root yields Approved (returning the unresolved absolute path),
and a resolved parent outside all allowed roots yields the
parent-outside rejection. -/
theorem validatePath_newfile_spec (fs : Fs) (allowed : List String) (p : String)
    (h1 : isPathInAllowedDirs fs allowed (goAbs fs p) = true)
    (h2 : goEvalSymlinks fs (goAbs fs p) = Except.error ResolveErr.notExist) :
    (∀ e, goEvalSymlinks fs (goDir (goAbs fs p)) = Except.error e →
      validatePath fs allowed p = Except.error PathRejection.parentMissing) ∧
    (∀ rp, goEvalSymlinks fs (goDir (goAbs fs p)) = Except.ok rp →
      isPathInAllowedDirs fs allowed rp = true →
      validatePath fs allowed p = Except.ok (goAbs fs p)) ∧
    (∀ rp, goEvalSymlinks fs (goDir (goAbs fs p)) = Except.ok rp →
      isPathInAllowedDirs fs allowed rp = false →
      validatePath fs allowed p = Except.error PathRejection.parentOutsideAllowedRoots) := by
  refine ⟨?_, ?_, ?_⟩
  · intro e hpe
    simp only [validatePath, h1, Bool.not_true, if_false, Bool.false_eq_true, h2, hpe]
  · intro rp hrp hin
    simp only [validatePath, h1, Bool.not_true, if_false, Bool.false_eq_true, h2, hrp, hin,
      Bool.not_true]
  · intro rp hrp hout
    simp only [validatePath, h1, Bool.not_true, if_false, Bool.false_eq_true, h2, hrp, hout,
      Bool.not_false, if_true]

/-- C7 witness: the new file `/root/new.txt` below the allowed root
`/root/` is approved with its unresolved absolute path, and the new
file `/outside2/new.txt` in a directory outside the allowed roots never
reaches the parent test (it already fails the initial membership
test). -/
theorem validatePath_newfile_spec_witness :
    isPathInAllowedDirs fsOther ["/root/"] (goAbs fsOther "/root/new.txt") = true ∧
    goEvalSymlinks fsOther (goAbs fsOther "/root/new.txt") = Except.error ResolveErr.notExist ∧
    goEvalSymlinks fsOther (goDir (goAbs fsOther "/root/new.txt")) = Except.ok "/root" ∧
    validatePath fsOther ["/root/"] "/root/new.txt" = Except.ok (goAbs fsOther "/root/new.txt") ∧
    goAbs fsOther "/root/new.txt" = "/root/new.txt" :=
  ⟨rfl, rfl, rfl,
    (validatePath_newfile_spec fsOther ["/root/"] "/root/new.txt" rfl rfl).2.1 "/root" rfl rfl,
    rfl⟩

/-! ## Claim C8: idempotence of validation on its own output -/

/-- C8 counterexample: `/other` is a symbolic link to the allowed root
`/root`, and `/root/f` exists; the resolved real path of `/other/f` is
`/root/f`, which lies under the allowed root, yet `validatePath`
rejects the request — the claim's membership condition on the resolved
real path is not sufficient for approval, because the initial
membership test runs on the unresolved absolute path. -/
theorem validatePath_resolved_inside_not_approved :
    goEvalSymlinks fsOther (goAbs fsOther "/other/f") = Except.ok "/root/f" ∧
    isPathInAllowedDirs fsOther ["/root/"] "/root/f" = true ∧
    validatePath fsOther ["/root/"] "/other/f" = Except.error PathRejection.outsideAllowedRoots :=
  ⟨rfl, rfl, rfl⟩

/-- C8 (amended): for every path `p` that passes the initial membership
test and whose fully resolved real path `c` exists and also passes the
membership test, `validatePath` returns Approved with the canonical
path `c`, and a second call on `c` again returns Approved with the same
`c` unchanged: the canonical path is absolute with no symbolic link
left to resolve, so absolutization and symlink resolution both fix it. -/
theorem validatePath_idempotent_on_approved (fs : Fs) (allowed : List String) (p c : String)
    (h1 : isPathInAllowedDirs fs allowed (goAbs fs p) = true)
    (h2 : goEvalSymlinks fs (goAbs fs p) = Except.ok c)
    (h3 : isPathInAllowedDirs fs allowed c = true) :
    validatePath fs allowed p = Except.ok c ∧ validatePath fs allowed c = Except.ok c := by
  have hfirst : validatePath fs allowed p = Except.ok c := by
    simp only [validatePath, h1, Bool.not_true, if_false, Bool.false_eq_true, h2, h3]
  refine ⟨hfirst, ?_⟩
  have h2' := h2
  simp only [goEvalSymlinks] at h2'
  rcases hres : resolveFuel fs 255 [] (segsOf (goAbs fs p)) with e | r
  · rw [hres] at h2'
    exact absurd h2' (by simp)
  · rw [hres] at h2'
    simp only [Except.ok.injEq] at h2'
    have hplain : PlainChain fs [] r :=
      resolveFuel_plain fs 255 [] (segsOf (goAbs fs p)) r True.intro
        (segsOf_base (goAbs fs p)) hres
    have hgood : ∀ s ∈ r, GoodSeg s := plainChain_good fs r [] hplain
    have habs : goAbs fs c = c := by
      rw [← h2']
      exact goAbs_pathOfSegs fs r hgood
    have hsegs : segsOf c = r := by
      rw [← h2']
      exact segsOf_pathOfSegs r (fun s hs => ⟨(hgood s hs).1, (hgood s hs).2.2.2⟩)
    have hev : goEvalSymlinks fs c = Except.ok c := by
      simp only [goEvalSymlinks, habs, hsegs, plainChain_resolveFuel fs r hplain 255]
      rw [h2']
    simp only [validatePath, habs, h3, Bool.not_true, if_false, Bool.false_eq_true, hev]

/-- C8 witness: `/root/l` is a symbolic link to the file `/root/f`
inside the allowed root; validating it approves the canonical path
`/root/f`, and validating `/root/f` returns the same path unchanged. -/
theorem validatePath_idempotent_on_approved_witness :
    validatePath fsInner ["/root/"] "/root/l" = Except.ok "/root/f" ∧
    validatePath fsInner ["/root/"] "/root/f" = Except.ok "/root/f" :=
  validatePath_idempotent_on_approved fsInner ["/root/"] "/root/l" "/root/f" rfl rfl rfl

/-! ## Claim C5: configuration-time normalization of the allowed roots -/

/-- C5 counterexample: with `/a` a symbolic link to the directory `/b`,
loading the allowed root `/a` succeeds and stores `/a/` — the symbolic
link is not resolved (the code only applies `filepath.Abs` and
`filepath.Clean`), so the stored member differs from the
symlink-resolved form `/b/` that the claim requires. -/
theorem fileSystemConfig_check_keeps_symlink :
    FileSystemConfig.Check fsLinkRoot ["/a"] = Except.ok ["/a/"] ∧
    goEvalSymlinks fsLinkRoot "/a" = Except.ok "/b" ∧
    ("/a/" : String) ≠ "/b/" :=
  ⟨rfl, rfl, by decide⟩

/-- C5 (amended): at configuration-load time `FileSystemConfig.Check`
normalizes every allowed root to an absolute, lexically cleaned path
with a trailing separator appended — without resolving symbolic
links — and it succeeds exactly when every (trimmed, absolutized) entry
stats to an existing directory; otherwise the load fails.  The model's
check is a pure function of the entry list, so the loaded membership
is a fixed value. -/
theorem fileSystemConfig_check_spec (fs : Fs) (dirs : List String) :
    (∀ out, FileSystemConfig.Check fs dirs = Except.ok out →
      out = dirs.map (fun d => goCleanAbs (goAbs fs (strTrim d)) ++ "/")) ∧
    (exceptIsOk (FileSystemConfig.Check fs dirs) = true ↔
      ∀ d ∈ dirs, goStatIsDir fs (goAbs fs (strTrim d)) = some true) := by
  induction dirs with
  | nil =>
    constructor
    · intro out hout
      simp only [FileSystemConfig.Check] at hout
      cases hout
      rfl
    · simp [FileSystemConfig.Check, exceptIsOk]
  | cons d rest ih =>
    rcases hstat : goStatIsDir fs (goAbs fs (strTrim d)) with _ | b
    · constructor
      · intro out hout
        simp only [FileSystemConfig.Check, hstat] at hout
        exact Except.noConfusion hout
      · constructor
        · intro hok
          simp only [FileSystemConfig.Check, hstat, exceptIsOk] at hok
          exact absurd hok (by simp)
        · intro hall
          have := hall d (List.mem_cons_self d rest)
          rw [hstat] at this
          cases this
    · cases b
      · constructor
        · intro out hout
          simp only [FileSystemConfig.Check, hstat] at hout
          exact Except.noConfusion hout
        · constructor
          · intro hok
            simp only [FileSystemConfig.Check, hstat, exceptIsOk] at hok
            exact absurd hok (by simp)
          · intro hall
            have := hall d (List.mem_cons_self d rest)
            rw [hstat] at this
            cases this
      · rcases hr : FileSystemConfig.Check fs rest with e | ns
        · constructor
          · intro out hout
            simp only [FileSystemConfig.Check, hstat, hr] at hout
            exact Except.noConfusion hout
          · constructor
            · intro hok
              simp only [FileSystemConfig.Check, hstat, hr, exceptIsOk] at hok
              exact absurd hok (by simp)
            · intro hall
              have hrest : ∀ x ∈ rest, goStatIsDir fs (goAbs fs (strTrim x)) = some true :=
                fun x hx => hall x (List.mem_cons_of_mem d hx)
              have := ih.2.mpr hrest
              rw [hr] at this
              simp [exceptIsOk] at this
        · constructor
          · intro out hout
            simp only [FileSystemConfig.Check, hstat, hr] at hout
            cases hout
            simp only [List.map_cons]
            rw [ih.1 ns hr]
          · constructor
            · intro _
              intro x hx
              rcases List.mem_cons.mp hx with rfl | hx2
              · exact hstat
              · exact ih.2.mp (by rw [hr]; rfl) x hx2
            · intro _
              simp [FileSystemConfig.Check, hstat, hr, exceptIsOk]

/-- C5 witness: with `/b` an existing directory, loading the (padded)
entry `" /b "` succeeds and stores exactly the normalized,
separator-terminated member `/b/`. -/
theorem fileSystemConfig_check_spec_witness :
    exceptIsOk (FileSystemConfig.Check fsLinkRoot [" /b "]) = true ∧
    FileSystemConfig.Check fsLinkRoot [" /b "] = Except.ok ["/b/"] :=
  ⟨(fileSystemConfig_check_spec fsLinkRoot [" /b "]).2.mpr (by decide), rfl⟩

/-! ## Claim C9: handlers perform no OS side effects on deny -/

/-- C9: on a deny decision no OS side effect is performed and the
rejection is surfaced as an error result: a command refused by
`isAllowedCommand` spawns no process; a write whose path fails
`validatePath` creates and writes nothing; a move whose source or
destination fails `validatePath` creates, renames and moves nothing. -/
theorem handlers_no_side_effects_on_deny :
    (∀ (exec : String → Except String String) (allowed : List String) (cmd : String),
      isAllowedCommand allowed cmd = false →
      (handleExecuteCommand exec allowed cmd).2 = [] ∧
        (handleExecuteCommand exec allowed cmd).1.isError = true) ∧
    (∀ (fs : Fs) (allowed : List String) (cachePath path content : String)
        (e : PathRejection),
      validatePath fs allowed (goJoin cachePath path) = Except.error e →
      (handleWriteFile fs allowed cachePath path content).2 = [] ∧
        (handleWriteFile fs allowed cachePath path content).1.isError = true) ∧
    (∀ (fs : Fs) (allowed : List String) (src dst : String) (e : PathRejection),
      validatePath fs allowed src = Except.error e →
      (handleMoveFile fs allowed src dst).2 = [] ∧
        (handleMoveFile fs allowed src dst).1.isError = true) ∧
    (∀ (fs : Fs) (allowed : List String) (src dst : String) (e : PathRejection),
      validatePath fs allowed dst = Except.error e →
      (handleMoveFile fs allowed src dst).2 = [] ∧
        (handleMoveFile fs allowed src dst).1.isError = true) := by
  refine ⟨?_, ?_, ?_, ?_⟩
  · intro exec allowed cmd h
    simp [handleExecuteCommand, h]
  · intro fs allowed cachePath path content e h
    simp [handleWriteFile, h]
  · intro fs allowed src dst e h
    simp [handleMoveFile, h]
  · intro fs allowed src dst e h
    rcases hsrc : validatePath fs allowed src with esrc | vs
    · simp [handleMoveFile, hsrc]
    · rcases hst : goStatE fs vs with err | n
      · cases err <;> simp [handleMoveFile, hsrc, hst, h]
      · cases n <;> simp [handleMoveFile, hsrc, hst, h]

/-- C9 witness: a disallowed command (`rm -rf /x` against allowlist
`{"ls"}`) spawns nothing, and a write and a move outside the allowed
root (`/root/`) of `fsOther` perform no filesystem effect. -/
theorem handlers_no_side_effects_on_deny_witness :
    (handleExecuteCommand (fun _ => Except.ok "") ["ls"] "rm -rf /x").2 = [] ∧
    (handleWriteFile fsOther ["/root/"] "/tmp" "x" "hello").2 = [] ∧
    (handleMoveFile fsOther ["/root/"] "/root/f" "/outside2/g").2 = [] :=
  ⟨(handlers_no_side_effects_on_deny.1 (fun _ => Except.ok "") ["ls"] "rm -rf /x" rfl).1,
    (handlers_no_side_effects_on_deny.2.1 fsOther ["/root/"] "/tmp" "x" "hello"
      PathRejection.outsideAllowedRoots rfl).1,
    (handlers_no_side_effects_on_deny.2.2.2 fsOther ["/root/"] "/root/f" "/outside2/g"
      PathRejection.outsideAllowedRoots rfl).1⟩

/-! ## Claim C10: the constructor ignores its directory argument -/

/-- C10: `NewFileSystemConfig` resets its `path` argument to the empty
string before the trim test, so the construction is independent of the
argument (in particular of the `BasePath/data` directory that
`NewFilesystemServer` passes in), and the allowed-directories set,
`AllowedDir` and `CachePath` all equal the `os.TempDir()` default. -/
theorem newFileSystemConfig_ignores_argument (tempDir path : String) :
    NewFileSystemConfig tempDir path = NewFileSystemConfig tempDir "" ∧
    (NewFileSystemConfig tempDir path).AllowedDir = tempDir ∧
    (NewFileSystemConfig tempDir path).CachePath = tempDir ∧
    (NewFileSystemConfig tempDir path).allowedDirs = [tempDir] :=
  ⟨rfl, rfl, rfl, rfl⟩

/-- C3 witness: the configuration string `"ls,"` (trailing comma) splits
into `["ls", ""]`, `Check` succeeds, and the arbitrary command
`"rm -rf /"` is approved. -/
theorem commandConfig_empty_entry_allows_all_witness :
    ("" ∈ loadAllowedCommands "ls,") ∧
    CommandConfig.Check (loadAllowedCommands "ls,") = true ∧
    isAllowedCommand (loadAllowedCommands "ls,") "rm -rf /" = true :=
  ⟨by decide,
    (commandConfig_empty_entry_allows_all "ls," (by decide) ⟨"ls", by decide, by decide⟩).1,
    (commandConfig_empty_entry_allows_all "ls," (by decide) ⟨"ls", by decide, by decide⟩).2 "rm -rf /"⟩
